import Mathlib

/-!
Shallow embedding of the cerf shell (language-processing and execution
pipeline) in Lean 4, used to check the natural-language specification
against the code.

Conventions of the embedding:
* Rust String becomes Lean String (worked on as List Char where the Rust
  code iterates over chars).
* Rust HashMap String String becomes a lookup function String → Option String
  (for variable maps) or an association list (for the job table, where
  insertion and removal matter).
* Rust i32 exit codes become Int; pids and job ids become Nat.
* Calls into the operating system (spawning processes, waitpid events,
  the glob crate walking the filesystem, entering a directory) are
  abstracted as explicit oracle parameters, so every definition stays a
  pure, executable function of its inputs.
-/

namespace Cerf

/-! ### Variable expansion, from src/parser/expand.rs (expand_vars)

The Rust code walks the input with a peekable char iterator.  The branch
structure below mirrors the match on the peeked character: a second
dollar, an opening brace, an identifier head, or anything else. -/

/-- Identifier head per the source: is_ascii_alphabetic or underscore. -/
def isIdentStart (c : Char) : Bool := c.isAlpha || c == '_'

/-- Identifier continuation per the source: is_ascii_alphanumeric or underscore. -/
def isIdentChar (c : Char) : Bool := c.isAlphanum || c == '_'

/-- Shell-variable lookup used by expand_vars: cloned value, or the empty
string when the variable is absent (unwrap_or_default in the source). -/
def lookupVar (vars : String → Option String) (name : List Char) : List Char :=
  match vars (String.mk name) with
  | some v => v.data
  | none => []

/-- Embedding of expand_vars from src/parser/expand.rs.  A take_while on a
Rust iterator consumes the first failing element, hence the extra drop 1
in the brace branch; next_if does not consume the failing element, hence
the plain dropWhile in the identifier branch. -/
def expandVars (vars : String → Option String) : List Char → List Char
  | [] => []
  | c :: rest =>
    if c = '$' then
      match rest with
      | [] => ['$']
      | c2 :: rs =>
        if c2 = '$' then '$' :: expandVars vars rs
        else if c2 = '{' then
          lookupVar vars (rs.takeWhile (fun d => d != '}')) ++
            expandVars vars ((rs.dropWhile (fun d => d != '}')).drop 1)
        else if isIdentStart c2 then
          lookupVar vars (c2 :: rs.takeWhile isIdentChar) ++
            expandVars vars (rs.dropWhile isIdentChar)
        else '$' :: expandVars vars (c2 :: rs)
    else c :: expandVars vars rest
  termination_by l => l.length
  decreasing_by
    · simp; omega
    · have h1 : ((rs.dropWhile (fun d => d != '}')).drop 1).length ≤
          (rs.dropWhile (fun d => d != '}')).length := by
        simp [List.length_drop]
      have h2 : (rs.dropWhile (fun d => d != '}')).length ≤ rs.length :=
        (List.dropWhile_sublist _).length_le
      simp only [List.length_cons]
      omega
    · have h2 : (rs.dropWhile isIdentChar).length ≤ rs.length :=
        (List.dropWhile_sublist _).length_le
      simp only [List.length_cons]
      omega
    · simp
    · simp

/-- String-level wrapper for expand_vars. -/
def expandVarsStr (vars : String → Option String) (s : String) : String :=
  String.mk (expandVars vars s.data)

/-! ### AST types, from src/parser/ast.rs

The checked-in ast.rs predates the rest of the tree: the Pipeline struct
it declares lacks the background field and the Connector enum lacks the
Amp variant, although combinators.rs constructs Pipeline with
background and execution.rs matches on Connector::Amp.  The embedding
declares the fields those users require. -/

/-- One shell argument with quoting metadata (struct Arg). -/
structure Arg where
  value : String
  quoted : Bool
deriving DecidableEq, Repr

/-- Arg::plain — an unquoted argument. -/
def Arg.plain (value : String) : Arg := ⟨value, false⟩

/-- enum RedirectKind. -/
inductive RedirectKind where
  | StdoutOverwrite
  | StdoutAppend
  | StdinFrom
deriving DecidableEq, Repr

/-- struct Redirect. -/
structure Redirect where
  kind : RedirectKind
  file : String
deriving DecidableEq, Repr

/-- struct ParsedCommand. -/
structure ParsedCommand where
  assignments : List (String × String)
  name : Option String
  args : List Arg
  redirects : List Redirect
deriving DecidableEq, Repr

/-- struct Pipeline (with the background field required by its users). -/
structure Pipeline where
  commands : List ParsedCommand
  negated : Bool
  background : Bool
deriving DecidableEq, Repr

/-- enum Connector (with the Amp variant required by its users). -/
inductive Connector where
  | Semi
  | And
  | Or
  | Amp
deriving DecidableEq, Repr

/-- struct CommandEntry. -/
structure CommandEntry where
  connector : Option Connector
  pipeline : Pipeline
deriving DecidableEq, Repr

/-- enum ExecutionResult, from src/engine/state.rs. -/
inductive ExecutionResult where
  | KeepRunning
  | Exit
deriving DecidableEq, Repr

/-! ### Command-list evaluation, from src/engine/execution.rs (execute_list)

execute_list drives one parsed command list.  The evaluation of a single
pipeline (execute) spawns processes, so here it is an explicit parameter
exec of the loop: exec takes the pipeline and the shell state and returns
the ExecutionResult, the exit code, and the updated state. -/

/-- The skip decision of execute_list, verbatim from the match on
entry.connector (src/engine/execution.rs lines 568-574). -/
def entrySkip (connector : Option Connector) (lastCode : Int) : Bool :=
  match connector with
  | none => false
  | some .Semi => false
  | some .And => lastCode != 0
  | some .Or => lastCode == 0
  | some .Amp => false

/-- The loop of execute_list with the running last_code made explicit. -/
def executeListAux {σ : Type} (exec : Pipeline → σ → ExecutionResult × Int × σ) :
    List CommandEntry → σ → Int → ExecutionResult × σ
  | [], st, _ => (.KeepRunning, st)
  | entry :: rest, st, lastCode =>
    if entrySkip entry.connector lastCode then
      executeListAux exec rest st lastCode
    else
      match exec entry.pipeline st with
      | (result, code, st') =>
        match result with
        | .Exit => (.Exit, st')
        | .KeepRunning => executeListAux exec rest st' code

/-- Embedding of execute_list: last_code starts at 0. -/
def executeList {σ : Type} (exec : Pipeline → σ → ExecutionResult × Int × σ)
    (entries : List CommandEntry) (st : σ) : ExecutionResult × σ :=
  executeListAux exec entries st 0

/-! ### Glob expansion, from src/engine/glob.rs (expand_globs)

The call into the glob crate walks the filesystem, so it is an oracle
fsGlob : String → Option (List String); some l models Ok with l the
entries that matched without error, none models Err. -/

/-- contains_glob_chars from src/engine/glob.rs. -/
def containsGlobChars (s : String) : Bool :=
  s.data.contains '*' || s.data.contains '?' || s.data.contains '['

/-- Vec::sort on Vec String — lexicographic order on strings. -/
def sortStrings (l : List String) : List String :=
  l.mergeSort (· ≤ ·)

/-- Embedding of expand_globs: the for loop over the argument list. -/
def expandGlobs (fsGlob : String → Option (List String)) : List Arg → List String
  | [] => []
  | arg :: rest =>
    if arg.quoted || !containsGlobChars arg.value then
      arg.value :: expandGlobs fsGlob rest
    else
      match fsGlob arg.value with
      | some paths =>
        if paths.isEmpty then arg.value :: expandGlobs fsGlob rest
        else sortStrings paths ++ expandGlobs fsGlob rest
      | none => arg.value :: expandGlobs fsGlob rest

/-- The contribution of a single argument to expand_globs, used to state
that the expander maps each Arg independently. -/
def expandOneGlob (fsGlob : String → Option (List String)) (arg : Arg) : List String :=
  if arg.quoted || !containsGlobChars arg.value then [arg.value]
  else
    match fsGlob arg.value with
    | some paths => if paths.isEmpty then [arg.value] else sortStrings paths
    | none => [arg.value]

/-! ### Job state, from src/engine/state.rs -/

/-- enum JobState. -/
inductive JobState where
  | Running
  | Stopped
  | Done (code : Int)
deriving DecidableEq, Repr

/-- struct ProcessInfo. -/
structure ProcessInfo where
  pid : Nat
  name : String
  state : JobState
deriving DecidableEq, Repr

/-- struct Job (the platform-specific job_handle field is omitted). -/
structure Job where
  id : Nat
  pgid : Nat
  command : String
  processes : List ProcessInfo
  reported_done : Bool
deriving DecidableEq, Repr

/-- matches!(state, Stopped | Done(_)). -/
def JobState.isSuspended : JobState → Bool
  | .Stopped => true
  | .Done _ => true
  | .Running => false

/-- matches!(state, Stopped). -/
def JobState.isStoppedState : JobState → Bool
  | .Stopped => true
  | _ => false

/-- matches!(state, Done(_)). -/
def JobState.isDoneState : JobState → Bool
  | .Done _ => true
  | _ => false

/-- Job::is_stopped. -/
def Job.is_stopped (j : Job) : Bool :=
  j.processes.all (fun p => p.state.isSuspended) &&
    j.processes.any (fun p => p.state.isStoppedState)

/-- Job::is_done. -/
def Job.is_done (j : Job) : Bool :=
  j.processes.all (fun p => p.state.isDoneState)

/-- Job::state — the derived job state.  Named state like the source
method; on the all-done path the last process supplies the code, with the
unwrap_or(0) defaults of the source. -/
def Job.state (j : Job) : JobState :=
  if j.is_done then
    .Done (((j.processes.getLast?).map (fun p =>
      match p.state with
      | .Done c => c
      | _ => 0)).getD 0)
  else if j.is_stopped then .Stopped
  else .Running

/-! ### Job table and engine state

HashMap usize Job is modelled as an association list; insert places the
new binding at the head after erasing any old binding for the key. -/

abbrev JobTable := List (Nat × Job)

def jtFind (t : JobTable) (k : Nat) : Option Job :=
  (List.find? (fun kv => kv.1 == k) t).map (fun kv => kv.2)

def jtInsert (t : JobTable) (k : Nat) (v : Job) : JobTable :=
  (k, v) :: List.filter (fun kv => kv.1 != k) t

def jtRemove (t : JobTable) (k : Nat) : JobTable :=
  List.filter (fun kv => kv.1 != k) t

/-- The slice of ShellState that the execution engine reads and writes in
the claims under study: aliases, the job table, and the id counter. -/
structure EngineState where
  aliases : List (String × String)
  jobs : JobTable
  next_job_id : Nat

/-! ### Alias expansion, from src/engine/alias.rs -/

/-- shell_split from src/engine/alias.rs: whitespace split honouring
single quotes.  inSingle tracks in_single, acc accumulates the current
token in reverse. -/
def shellSplitAux : List Char → Bool → List Char → List String
  | [], _, acc => if acc.isEmpty then [] else [String.mk acc.reverse]
  | c :: rest, inSingle, acc =>
    if c = '\'' then shellSplitAux rest (!inSingle) acc
    else if (c = ' ' || c = '\t') && !inSingle then
      if acc.isEmpty then shellSplitAux rest inSingle []
      else String.mk acc.reverse :: shellSplitAux rest inSingle []
    else shellSplitAux rest inSingle (c :: acc)

def shellSplit (s : String) : List String :=
  shellSplitAux s.data false []

/-- expand_alias from src/engine/alias.rs, applied to one ParsedCommand.
The alias tokens prepended to the argument list enter as plain args. -/
def expandAliasCmd (aliases : List (String × String)) (cmd : ParsedCommand) :
    ParsedCommand :=
  match cmd.name with
  | none => cmd
  | some n =>
    match (List.find? (fun kv => kv.1 == n) aliases).map (fun kv => kv.2) with
    | none => cmd
    | some value =>
      match shellSplit value with
      | [] => cmd
      | tok :: toks =>
        { cmd with name := some tok, args := toks.map Arg.plain ++ cmd.args }

/-! ### Pipeline execution, from src/engine/execution.rs (execute)

Spawning a child and opening a redirect are operating-system effects; a
per-command oracle reports which of the three outcomes the source
distinguishes happened: a successful spawn with a pid, a failed redirect
open (exit 1), or a failed spawn (command not found, exit 127). -/

inductive SpawnOutcome where
  | ok (pid : Nat)
  | redirectFail
  | notFound
deriving DecidableEq, Repr

/-- The spawn loop of execute (multi-command branch): commands without a
name are skipped, an exit builtin kills the children spawned so far and
signals Exit, a redirect or spawn failure aborts with the code the source
returns there (1 or 127), and each success appends a Running process. -/
def spawnCmds (os : ParsedCommand → SpawnOutcome) :
    List ParsedCommand → Except (ExecutionResult × Int) (List ProcessInfo)
  | [] => .ok []
  | cmd :: rest =>
    match cmd.name with
    | none => spawnCmds os rest
    | some name =>
      if name = "exit" then .error (.Exit, 0)
      else
        match os cmd with
        | .ok pid =>
          (spawnCmds os rest).map (fun ps => ⟨pid, name, .Running⟩ :: ps)
        | .redirectFail => .error (.KeepRunning, 1)
        | .notFound => .error (.KeepRunning, 127)

/-- The exit-code inversion execute applies at both of its returns:
if negated { if code == 0 { 1 } else { 0 } } else { code }. -/
def negateCode (negated : Bool) (code : Int) : Int :=
  if negated then (if code = 0 then 1 else 0) else code

/-- A waitpid result delivered to wait_for_job, reduced to the state
update it triggers on the process with the given pid: Exited(pid, c) and
Signaled(pid, s) become Done, Stopped becomes Stopped, Continued becomes
Running. -/
abbrev WaitEvent := Nat × JobState

/-- update_pid_state from src/engine/job_control.rs: set the state of
every process with the given pid, in every job of the table. -/
def applyEvent (t : JobTable) (ev : WaitEvent) : JobTable :=
  t.map (fun kv =>
    (kv.1, { kv.2 with processes := kv.2.processes.map (fun p =>
      if p.pid = ev.1 then { p with state := ev.2 } else p) }))

/-- The ECHILD arm of wait_for_job: every still-Running process of the
awaited job becomes Done(last_code). -/
def markJobRunningDone (t : JobTable) (jobId : Nat) (lastCode : Int) : JobTable :=
  t.map (fun kv =>
    if kv.1 = jobId then
      (kv.1, { kv.2 with processes := kv.2.processes.map (fun p =>
        if p.state = .Running then { p with state := .Done lastCode } else p) })
    else kv)

/-- The checks at the top of the wait_for_job loop body.  some means the
loop breaks with that exit code and state; none means the loop goes on to
block in waitpid. -/
def jobCheck (jobId : Nat) (fg : Bool) (lastCode : Int) (st : EngineState) :
    Option (Int × EngineState) :=
  match jtFind st.jobs jobId with
  | none => some (lastCode, st)
  | some job =>
    if job.is_stopped then some (lastCode, st)
    else if job.is_done then
      some ((match job.state with
             | .Done c => c
             | _ => lastCode),
            if fg then { st with jobs := jtRemove st.jobs jobId } else st)
    else if fg then none else some (lastCode, st)

/-- wait_for_job from src/engine/job_control.rs (POSIX build), driven by
the finite list of waitpid results the OS will deliver; once the list is
exhausted waitpid reports ECHILD, whose arm marks the remaining Running
processes Done and the loop breaks on its next check. -/
def waitForJob (jobId : Nat) (fg : Bool) (lastCode : Int) (st : EngineState) :
    List WaitEvent → Int × EngineState
  | [] =>
    match jobCheck jobId fg lastCode st with
    | some r => r
    | none =>
      let st' := { st with jobs := markJobRunningDone st.jobs jobId lastCode }
      match jobCheck jobId fg lastCode st' with
      | some r => r
      | none => (lastCode, st')
  | ev :: rest =>
    match jobCheck jobId fg lastCode st with
    | some r => r
    | none =>
      waitForJob jobId fg lastCode { st with jobs := applyEvent st.jobs ev } rest

/-- Job registration, verbatim from execute (src/engine/execution.rs
lines 506-517 and 230-245): the job is stored under next_job_id, which is
then incremented.  Returns the id the job was given. -/
def registerJob (job : Job) (st : EngineState) : Nat × EngineState :=
  let jobId := st.next_job_id
  (jobId,
   { st with jobs := jtInsert st.jobs jobId { job with id := jobId },
             next_job_id := st.next_job_id + 1 })

/-- format_command from src/engine/job_control.rs. -/
def formatCommand (p : Pipeline) : String :=
  String.intercalate " | " (p.commands.map (fun c =>
    String.intercalate " " ((match c.name with
                             | some n => [n]
                             | none => []) ++ c.args.map (fun a => a.value)))) ++
    (if p.background then " &" else "")

/-- first_pgid as execute computes it: the pid of the child spawned for
the command at index 0, and 0 when that command was skipped for having no
name. -/
def firstPgidOf (cmds : List ParsedCommand) (ps : List ProcessInfo) : Nat :=
  match cmds with
  | [] => 0
  | c :: _ =>
    match c.name with
    | none => 0
    | some _ => ((ps.head?).map (fun p => p.pid)).getD 0

/-- Embedding of execute from src/engine/execution.rs.  Aliases are
expanded on every command, then a single-command pipeline runs through
execute_simple (abstracted as the oracle runSimple, since builtins and
external commands interact with the world), while a multi-command
pipeline spawns a process group, registers it as a job, and either waits
for it in the foreground or reports the job id and returns 0 for a
background pipeline.  Both returns invert the code when negated. -/
def aliasedPipeline (aliases : List (String × String)) (p : Pipeline) : Pipeline :=
  { p with commands := p.commands.map (expandAliasCmd aliases) }

def execute (runSimple : Pipeline → EngineState → ExecutionResult × Int × EngineState)
    (os : ParsedCommand → SpawnOutcome) (events : List WaitEvent)
    (p : Pipeline) (st : EngineState) : ExecutionResult × Int × EngineState :=
  let pExp : Pipeline := aliasedPipeline st.aliases p
  if pExp.commands.length = 1 then
    match runSimple pExp st with
    | (res, code, st') => (res, negateCode pExp.negated code, st')
  else
    match spawnCmds os pExp.commands with
    | .error (res, code) => (res, code, st)
    | .ok processes =>
      let job : Job :=
        { id := st.next_job_id, pgid := firstPgidOf pExp.commands processes,
          command := formatCommand pExp, processes := processes,
          reported_done := false }
      match registerJob job st with
      | (jobId, st1) =>
        let r :=
          if pExp.background then (0, st1)
          else waitForJob jobId true 0 st1 events
        (.KeepRunning, negateCode pExp.negated r.1, r.2)

/-! ### The job-id transition system, for the monotonicity invariant

The operations the engine performs on the pair (jobs, next_job_id) are
registrations (both spawn sites of execution.rs go through the code
embedded as registerJob) and removals (wait_for_job on a finished
foreground job, update_jobs on reaped background jobs, and the Windows
paths).  Removal never touches next_job_id. -/

inductive EngineOp where
  | register (job : Job)
  | remove (id : Nat)

/-- One engine step on the job table; a registration emits the id it
assigned. -/
def engineStep (st : EngineState) : EngineOp → EngineState × Option Nat
  | .register job =>
    match registerJob job st with
    | (jobId, st') => (st', some jobId)
  | .remove id => ({ st with jobs := jtRemove st.jobs id }, none)

/-- Run a sequence of engine operations, collecting the assigned job ids
in order. -/
def runOps (st : EngineState) : List EngineOp → EngineState × List Nat
  | [] => (st, [])
  | op :: rest =>
    let p := engineStep st op
    let r := runOps p.1 rest
    (r.1, (match p.2 with
           | some i => [i]
           | none => []) ++ r.2)

/-- The job-table invariant: every id present in the table is below the
counter. -/
def JobInv (st : EngineState) : Prop :=
  ∀ kv ∈ st.jobs, kv.1 < st.next_job_id

/-- Along a run, every registration assigns an id that is fresh: no entry
with that id is in the table at that moment. -/
def FreshAssign (st : EngineState) : List EngineOp → Prop
  | [] => True
  | op :: rest =>
    (match op with
     | .register _ => ∀ kv ∈ st.jobs, kv.1 ≠ st.next_job_id
     | .remove _ => True) ∧ FreshAssign (engineStep st op).1 rest

/-! ### Paths, from src/engine/path.rs (POSIX flavour)

Paths are strings; components, normalization and joining follow the Rust
std path rules for unix: repeated separators collapse, a dot component is
dropped except at the very beginning of a relative path. -/

inductive PathComp where
  | root
  | cur
  | parent
  | normal (s : String)
deriving DecidableEq, Repr

/-- Path::components for a unix path string. -/
def pathComponents (s : String) : List PathComp :=
  let abs := s.startsWith "/"
  let parts := (s.splitOn "/").filter (fun t => t != "")
  let keepLeadingCur := !abs && parts.head? == some "."
  (if abs then [PathComp.root] else if keepLeadingCur then [PathComp.cur] else []) ++
    (parts.filter (fun t => t != ".")).map
      (fun t => if t = ".." then PathComp.parent else PathComp.normal t)

/-- The component loop of normalize_path: dot components are dropped, a
dot-dot pops a trailing Normal, does nothing at the root, and is kept
otherwise; everything else is pushed. -/
def normalizeFold (acc : List PathComp) : List PathComp → List PathComp
  | [] => acc
  | c :: rest =>
    match c with
    | .cur => normalizeFold acc rest
    | .parent =>
      match acc.getLast? with
      | some (.normal _) => normalizeFold acc.dropLast rest
      | some .root => normalizeFold acc rest
      | _ => normalizeFold (acc ++ [.parent]) rest
    | _ => normalizeFold (acc ++ [c]) rest

def renderComp : PathComp → String
  | .root => "/"
  | .cur => "."
  | .parent => ".."
  | .normal s => s

def renderComps : List PathComp → String
  | .root :: rest => "/" ++ String.intercalate "/" (rest.map renderComp)
  | l => String.intercalate "/" (l.map renderComp)

/-- normalize_path from src/engine/path.rs: resolve dot and dot-dot
without touching the disk; an empty result becomes a lone dot. -/
def normalizePath (s : String) : String :=
  let comps := normalizeFold [] (pathComponents s)
  renderComps (if comps.isEmpty then [PathComp.cur] else comps)

/-- PathBuf::push of a relative-or-absolute string onto a base. -/
def joinPath (base rest : String) : String :=
  if rest.startsWith "/" then rest
  else if base.endsWith "/" then base ++ rest
  else base ++ "/" ++ rest

/-- expand_home from src/engine/path.rs.  dirs::home_dir is the home
parameter; when it is absent both tilde branches fall through to the
plain normalization of the original string, as in the source. -/
def expandHome (home : Option String) (s : String) : String :=
  if s = "~" then
    match home with
    | some h => h
    | none => normalizePath s
  else if s.startsWith "~/" || s.startsWith "~\\" then
    match home with
    | some h => normalizePath (joinPath h (s.drop 2))
    | none => normalizePath s
  else normalizePath s

/-! ### Directory builtins, from src/builtins/cd.rs and src/builtins/dirs.rs

The filesystem is an oracle: cwd is the current directory the process is
in, home models dirs::home_dir, and enterable says whether
env::set_current_dir on a path succeeds.  env::current_dir is modelled as
always returning cwd.  The builtins return the Result of the source
runner together with the filesystem and the directory slice of
ShellState, mirroring mutation through &mut. -/

structure Fs where
  cwd : String
  home : Option String
  enterable : String → Bool

/-- The directory-related slice of ShellState. -/
structure DirState where
  previous_dir : Option String
  dir_stack : List String
deriving DecidableEq, Repr

/-- env::set_current_dir against the oracle. -/
def setCurrentDir (fs : Fs) (target : String) : Option Fs :=
  if fs.enterable target then some { fs with cwd := target } else none

/-- run from src/builtins/cd.rs: resolve the target (home when no
argument, previous_dir for a dash, tilde-expanded argument otherwise),
enter it, and on success record the old cwd in previous_dir. -/
def cdRun (fs : Fs) (args : List String) (st : DirState) :
    Except String Unit × Fs × DirState :=
  let current := fs.cwd
  let target? : Except String String :=
    match args with
    | [] =>
      match fs.home with
      | some h => .ok h
      | none => .error "Could not find home directory"
    | a :: _ =>
      if a = "-" then
        match st.previous_dir with
        | some p => .ok p
        | none => .error "OLDPWD not set"
      else .ok (expandHome fs.home a)
  match target? with
  | .error e => (.error e, fs, st)
  | .ok target =>
    match setCurrentDir fs target with
    | none => (.error ("no such file or directory: " ++ target), fs, st)
    | some fs' => (.ok (), fs', { st with previous_dir := some current })

/-- cd_runner from src/builtins/cd.rs: exit 0 on Ok, print the
diagnostic and exit 1 on Err. -/
def cdRunner (fs : Fs) (args : List String) (st : DirState) :
    Int × Fs × DirState :=
  match cdRun fs args st with
  | (.ok _, fs', st') => (0, fs', st')
  | (.error _, fs', st') => (1, fs', st')

/-- pushd from src/builtins/dirs.rs.  The Vec top is the list end.  With
no argument the top is popped and swapped with the cwd (pushed back
unchanged if it cannot be entered); with an argument the tilde-expanded
target is entered and the old cwd pushed. -/
def pushdRun (fs : Fs) (args : List String) (st : DirState) :
    Except String Unit × Fs × DirState :=
  let current := fs.cwd
  match args with
  | [] =>
    match st.dir_stack.getLast? with
    | none => (.error "pushd: no other directory", fs, st)
    | some top =>
      match setCurrentDir fs top with
      | none =>
        (.error ("pushd: no such file or directory: " ++ top), fs,
         { st with dir_stack := st.dir_stack.dropLast ++ [top] })
      | some fs' =>
        (.ok (), fs',
         { previous_dir := some current,
           dir_stack := st.dir_stack.dropLast ++ [current] })
  | a :: _ =>
    let target := expandHome fs.home a
    match setCurrentDir fs target with
    | none => (.error ("pushd: no such file or directory: " ++ target), fs, st)
    | some fs' =>
      (.ok (), fs',
       { previous_dir := some current, dir_stack := st.dir_stack ++ [current] })

def pushdRunner (fs : Fs) (args : List String) (st : DirState) :
    Int × Fs × DirState :=
  match pushdRun fs args st with
  | (.ok _, fs', st') => (0, fs', st')
  | (.error _, fs', st') => (1, fs', st')

/-- popd from src/builtins/dirs.rs: pop the top, enter it (pushing it
back unchanged on failure), and record the old cwd in previous_dir. -/
def popdRun (fs : Fs) (_args : List String) (st : DirState) :
    Except String Unit × Fs × DirState :=
  match st.dir_stack.getLast? with
  | none => (.error "popd: directory stack empty", fs, st)
  | some target =>
    let current := fs.cwd
    match setCurrentDir fs target with
    | none =>
      (.error ("popd: no such file or directory: " ++ target), fs,
       { st with dir_stack := st.dir_stack.dropLast ++ [target] })
    | some fs' =>
      (.ok (), fs',
       { previous_dir := some current, dir_stack := st.dir_stack.dropLast })

def popdRunner (fs : Fs) (args : List String) (st : DirState) :
    Int × Fs × DirState :=
  match popdRun fs args st with
  | (.ok _, fs', st') => (0, fs', st')
  | (.error _, fs', st') => (1, fs', st')

/-! ### The line parser, from src/parser/combinators.rs and src/parser/mod.rs

The nom combinators are embedded as functions from the remaining input
(a char list) to Option of the parsed value and the rest.  The loops
(adjacent segments of a word, leading assignments, arguments and
redirects, pipe segments, connector-pipeline pairs) take a fuel argument
set to the length of the remaining input at the call site; every loop
iteration consumes at least one character, so that fuel never runs out. -/

/-- nom multispace: space, tab, carriage return, line feed. -/
def isSpaceChar (c : Char) : Bool :=
  c == ' ' || c == '\t' || c == '\r' || c == '\n'

/-- multispace0. -/
def ms0 (l : List Char) : List Char := l.dropWhile isSpaceChar

/-- multispace1: at least one whitespace character. -/
def ms1 (l : List Char) : Option (List Char) :=
  match l with
  | c :: _ => if isSpaceChar c then some (l.dropWhile isSpaceChar) else none
  | [] => none

/-- nom is_not(set): the longest nonempty run of characters outside the
set. -/
def isNotRun (bad : List Char) (l : List Char) : Option (List Char × List Char) :=
  let content := l.takeWhile (fun c => !bad.contains c)
  if content.isEmpty then none
  else some (content, l.dropWhile (fun c => !bad.contains c))

/-- parse_double_quoted: delimited(char, is_not, char); nom is_not fails
on an empty run, so an empty quoted string does not parse. -/
def parseDoubleQuoted (l : List Char) : Option ((List Char × Bool) × List Char) :=
  match l with
  | '"' :: rest =>
    match isNotRun ['"'] rest with
    | some (content, r) =>
      match r with
      | '"' :: r2 => some ((content, true), r2)
      | _ => none
    | none => none
  | _ => none

/-- parse_single_quoted. -/
def parseSingleQuoted (l : List Char) : Option ((List Char × Bool) × List Char) :=
  match l with
  | '\'' :: rest =>
    match isNotRun ['\''] rest with
    | some (content, r) =>
      match r with
      | '\'' :: r2 => some ((content, true), r2)
      | _ => none
    | none => none
  | _ => none

/-- The character set parse_unquoted stops at. -/
def unquotedBad : List Char :=
  [' ', '\t', '\r', '\n', '"', '\'', ';', '&', '|', '>', '<']

/-- parse_unquoted. -/
def parseUnquoted (l : List Char) : Option ((List Char × Bool) × List Char) :=
  match isNotRun unquotedBad l with
  | some (content, r) => some ((content, false), r)
  | none => none

/-- alt((parse_double_quoted, parse_single_quoted, parse_unquoted)). -/
def parseSegment (l : List Char) : Option ((List Char × Bool) × List Char) :=
  match parseDoubleQuoted l with
  | some r => some r
  | none =>
    match parseSingleQuoted l with
    | some r => some r
    | none => parseUnquoted l

/-- The greedy adjacent-segment loop of parse_arg; returns the extra
text, the rest, and how many extra segments were consumed. -/
def argSegs : Nat → List Char → List Char × List Char × Nat
  | 0, l => ([], l, 0)
  | fuel + 1, l =>
    match parseSegment l with
    | none => ([], l, 0)
    | some ((v, _), rest) =>
      match argSegs fuel rest with
      | (more, rest', n) => (v ++ more, rest', n + 1)

/-- parse_arg: one word, quoted only when it is exactly one quoted
segment. -/
def parseArg (l : List Char) : Option (Arg × List Char) :=
  match parseSegment l with
  | none => none
  | some ((v1, q1), rest) =>
    match argSegs rest.length rest with
    | (more, rest', extra) =>
      some (⟨String.mk (v1 ++ more), extra == 0 && q1⟩, rest')

/-- parse_word: parse_arg without the quoting metadata. -/
def parseWord (l : List Char) : Option (String × List Char) :=
  (parseArg l).map (fun ar => (ar.1.value, ar.2))

/-- The filename half of parse_redirect. -/
def parseRedirectFile (kind : RedirectKind) (r : List Char) :
    Option (Redirect × List Char) :=
  match parseWord (ms0 r) with
  | some (file, rest) => some (⟨kind, file⟩, rest)
  | none => none

/-- parse_redirect: optional space, then one of the three operators,
optional space, then a word. -/
def parseRedirect (l : List Char) : Option (Redirect × List Char) :=
  match ms0 l with
  | '>' :: '>' :: r => parseRedirectFile .StdoutAppend r
  | '>' :: r => parseRedirectFile .StdoutOverwrite r
  | '<' :: r => parseRedirectFile .StdinFrom r
  | _ => none

/-- The character set the assignment name stops at (it adds the equals
sign to the unquoted set). -/
def assignBad : List Char :=
  [' ', '\t', '\r', '\n', '"', '\'', ';', '&', '|', '=', '>', '<']

/-- parse_assignment: NAME=VALUE, the value defaulting to empty when no
word follows the equals sign. -/
def parseAssignment (l : List Char) : Option ((String × String) × List Char) :=
  match isNotRun assignBad l with
  | none => none
  | some (name, r) =>
    match r with
    | '=' :: r2 =>
      match parseWord r2 with
      | some (v, r3) => some ((String.mk name, v), r3)
      | none => some ((String.mk name, ""), r2)
    | _ => none

/-- The leading-assignments loop of parse_single_command; each
assignment is followed by multispace0. -/
def assignLoop : Nat → List Char → List (String × String) × List Char
  | 0, l => ([], l)
  | fuel + 1, l =>
    match parseAssignment l with
    | none => ([], l)
    | some (a, rest) =>
      match assignLoop fuel (ms0 rest) with
      | (moreA, rest') => (a :: moreA, rest')

/-- The interleaved argument-and-redirect loop of parse_single_command:
redirects first (they allow leading space), then an argument preceded by
at least one space; the loop breaks leaving the rest untouched. -/
def argRedirLoop : Nat → List Char → List Arg × List Redirect × List Char
  | 0, l => ([], [], l)
  | fuel + 1, l =>
    match parseRedirect l with
    | some (r, rest) =>
      match argRedirLoop fuel rest with
      | (args, reds, rest') => (args, r :: reds, rest')
    | none =>
      match ms1 l with
      | some lws =>
        match parseArg lws with
        | some (a, rest) =>
          match argRedirLoop fuel rest with
          | (args, reds, rest') => (a :: args, reds, rest')
        | none => ([], [], l)
      | none => ([], [], l)

/-- parse_single_command: leading assignments, an optional command name
(required when there are no assignments), then arguments and redirects,
then trailing space. -/
def parseSingleCommand (l : List Char) : Option (ParsedCommand × List Char) :=
  let l0 := ms0 l
  match assignLoop l0.length l0 with
  | (assigns, l1) =>
    match parseArg l1 with
    | some (nameArg, l2) =>
      match argRedirLoop l2.length l2 with
      | (args, reds, l3) =>
        some (⟨assigns, some nameArg.value, args, reds⟩, ms0 l3)
    | none =>
      if assigns.isEmpty then none
      else
        match argRedirLoop l1.length l1 with
        | (args, reds, l3) => some (⟨assigns, none, args, reds⟩, ms0 l3)

/-- The pipe loop of parse_pipeline_expr: a single pipe character that is
not the start of a logical-or, followed by a command; on a parse failure
after the pipe the loop breaks leaving the rest untrimmed. -/
def pipeLoop : Nat → List Char → List ParsedCommand × List Char
  | 0, l => ([], l)
  | fuel + 1, rest =>
    match rest.dropWhile isSpaceChar with
    | '|' :: '|' :: _ => ([], rest)
    | '|' :: after =>
      match parseSingleCommand after with
      | some (cmd, rest') =>
        match pipeLoop fuel rest' with
        | (cmds, final) => (cmd :: cmds, final)
      | none => ([], rest)
    | _ => ([], rest)

/-- parse_pipeline_expr: an optional bang (only when a token of its own),
one command, then the pipe loop.  The background field is always false
here; nothing else in the parser assigns it. -/
def parsePipelineExpr (l : List Char) : Option (Pipeline × List Char) :=
  let l1 := ms0 l
  let negRest : List Char × Bool :=
    match l1 with
    | '!' :: after =>
      match after with
      | [] => ([], true)
      | c :: _ => if isSpaceChar c then (after, true) else (l1, false)
    | _ => (l1, false)
  match parseSingleCommand negRest.1 with
  | none => none
  | some (first, rest1) =>
    match pipeLoop rest1.length rest1 with
    | (cmds, rest2) => some (⟨first :: cmds, negRest.2, false⟩, rest2)

/-- parse_connector: two-character operators before one-character ones. -/
def parseConnector (l : List Char) : Option (Connector × List Char) :=
  match ms0 l with
  | '&' :: '&' :: r => some (.And, r)
  | '|' :: '|' :: r => some (.Or, r)
  | ';' :: r => some (.Semi, r)
  | '&' :: r => some (.Amp, r)
  | _ => none

/-- The connector-pipeline loop of parse_input; any failure ends the
loop, silently dropping whatever input remains. -/
def entryLoop : Nat → List Char → List CommandEntry
  | 0, _ => []
  | fuel + 1, rest =>
    if (rest.dropWhile isSpaceChar).isEmpty then []
    else
      match parseConnector rest with
      | none => []
      | some (conn, r1) =>
        match parsePipelineExpr r1 with
        | none => []
        | some (p, r2) => ⟨some conn, p⟩ :: entryLoop fuel r2

/-- str::trim on a char list (ASCII whitespace). -/
def trimChars (l : List Char) : List Char :=
  ((l.dropWhile isSpaceChar).reverse.dropWhile isSpaceChar).reverse

/-- parse_input from src/parser/mod.rs: reject blank lines and comments,
expand variables on the raw line, then parse the first pipeline and the
connector-pipeline pairs.  The entry list returned is never empty, so
the final emptiness check of the source collapses into some. -/
def parseInput (vars : String → Option String) (input : String) :
    Option (List CommandEntry) :=
  let trimmed := trimChars input.data
  if trimmed.isEmpty || trimmed.head? == some '#' then none
  else
    let s := trimChars (expandVars vars input.data)
    match parsePipelineExpr s with
    | none => none
    | some (p1, rest) => some (⟨none, p1⟩ :: entryLoop rest.length rest)

/-! ### Small derived helpers used to state the claims -/

/-- The pid the spawn oracle reports for a command (0 on failure, never
consulted on failure paths). -/
def osPid (os : ParsedCommand → SpawnOutcome) (c : ParsedCommand) : Nat :=
  match os c with
  | .ok pid => pid
  | _ => 0

/-- Did the oracle report a successful spawn? -/
def isOkSpawn : SpawnOutcome → Bool
  | .ok _ => true
  | _ => false

/-- Does the string match the NAME shape of the specification,
[A-Za-z_][A-Za-z0-9_]* ? -/
def isIdentStr (s : String) : Bool :=
  match s.data with
  | [] => false
  | c :: cs => isIdentStart c && cs.all isIdentChar

/-! ## Theorems -/

/-! ### Shared helper lemmas -/

theorem expandVars_nil (vars : String → Option String) :
    expandVars vars [] = [] := by
  rw [expandVars.eq_def]

theorem expandVars_cons_ne (vars : String → Option String) (c : Char)
    (rest : List Char) (hc : ¬ c = '$') :
    expandVars vars (c :: rest) = c :: expandVars vars rest := by
  rw [expandVars.eq_def]
  simp [hc]

theorem expandVars_no_dollar (vars : String → Option String) :
    ∀ l : List Char, (∀ c ∈ l, c ≠ '$') → expandVars vars l = l := by
  intro l h
  induction l with
  | nil => exact expandVars_nil vars
  | cons c rest ih =>
    rw [expandVars_cons_ne vars c rest (h c (List.mem_cons_self _ _)),
      ih (fun d hd => h d (List.mem_cons_of_mem _ hd))]

theorem expandVars_dollar_dollar (vars : String → Option String) (rest : List Char) :
    expandVars vars ('$' :: '$' :: rest) = '$' :: expandVars vars rest := by
  rw [expandVars.eq_def]
  simp

theorem expandVars_dollar_end (vars : String → Option String) :
    expandVars vars ['$'] = ['$'] := by
  rw [expandVars.eq_def]
  simp

theorem expandVars_dollar_other (vars : String → Option String) (c : Char)
    (rest : List Char) (h1 : ¬ c = '$') (h2 : ¬ c = '{')
    (h3 : isIdentStart c = false) :
    expandVars vars ('$' :: c :: rest) = '$' :: expandVars vars (c :: rest) := by
  rw [expandVars.eq_def]
  simp +decide [h1, h2, h3]

theorem expandVars_dollar_ident (vars : String → Option String) (c : Char)
    (cs : List Char) (hc : isIdentStart c = true)
    (hcs : ∀ d ∈ cs, isIdentChar d = true) :
    expandVars vars ('$' :: c :: cs) = lookupVar vars (c :: cs) := by
  have h1 : ¬ c = '$' := by intro h; subst h; exact absurd hc (by decide)
  have h2 : ¬ c = '{' := by intro h; subst h; exact absurd hc (by decide)
  rw [expandVars.eq_def]
  simp +decide [h1, h2, hc, List.takeWhile_eq_self_iff.mpr hcs,
    List.dropWhile_eq_nil_iff.mpr hcs, expandVars_nil]

theorem takeWhile_all_append {α : Type} (p : α → Bool) :
    ∀ (l1 : List α) (x : α) (l2 : List α), (∀ c ∈ l1, p c = true) → p x = false →
      (l1 ++ x :: l2).takeWhile p = l1 := by
  intro l1
  induction l1 with
  | nil => intro x l2 _ hx; simp [List.takeWhile_cons, hx]
  | cons a l ih =>
    intro x l2 hall hx
    have ha : p a = true := hall a (List.mem_cons_self _ _)
    simp only [List.cons_append, List.takeWhile_cons, ha, if_true]
    rw [ih x l2 (fun c hc => hall c (List.mem_cons_of_mem _ hc)) hx]

theorem dropWhile_all_append {α : Type} (p : α → Bool) :
    ∀ (l1 : List α) (x : α) (l2 : List α), (∀ c ∈ l1, p c = true) → p x = false →
      (l1 ++ x :: l2).dropWhile p = x :: l2 := by
  intro l1
  induction l1 with
  | nil => intro x l2 _ hx; simp [List.dropWhile_cons, hx]
  | cons a l ih =>
    intro x l2 hall hx
    have ha : p a = true := hall a (List.mem_cons_self _ _)
    simp only [List.cons_append, List.dropWhile_cons, ha, if_true]
    exact ih x l2 (fun c hc => hall c (List.mem_cons_of_mem _ hc)) hx

theorem expandVars_brace (vars : String → Option String) (name rest : List Char)
    (h : ∀ d ∈ name, ¬ d = '}') :
    expandVars vars ('$' :: '{' :: (name ++ '}' :: rest)) =
      lookupVar vars name ++ expandVars vars rest := by
  have hb : ∀ d ∈ name, (fun d => d != '}') d = true :=
    fun d hd => bne_iff_ne.mpr (h d hd)
  have htk := takeWhile_all_append (fun d => d != '}') name '}' rest hb (by decide)
  have hdp := dropWhile_all_append (fun d => d != '}') name '}' rest hb (by decide)
  rw [expandVars.eq_def]
  simp +decide [htk, hdp]

theorem mk_data_eq (s : String) : String.mk s.data = s := by
  cases s
  rfl

theorem mk_lookupVar (vars : String → Option String) (X : String) :
    String.mk (lookupVar vars X.data) = (vars X).getD "" := by
  simp only [lookupVar, mk_data_eq]
  rcases h : vars X with _ | v
  · rfl
  · exact mk_data_eq v

/-! ### Claim C1: execute_list connector logic -/

/-- C1: execute_list evaluates entries left to right with last_code
initially 0; an entry is skipped iff its connector is And with a nonzero
last_code or Or with a zero last_code; None, Semi, and Amp never skip; a
skipped entry leaves last_code unchanged (the tail continues with the
same last_code); and evaluation stops early exactly when an executed
pipeline signals Exit. -/
theorem execute_list_spec {σ : Type}
    (exec : Pipeline → σ → ExecutionResult × Int × σ) :
    (∀ entries st, executeList exec entries st = executeListAux exec entries st 0) ∧
    (∀ c lc, entrySkip c lc = true ↔
      ((c = some .And ∧ lc ≠ 0) ∨ (c = some .Or ∧ lc = 0))) ∧
    (∀ lc, entrySkip none lc = false ∧ entrySkip (some .Semi) lc = false ∧
      entrySkip (some .Amp) lc = false) ∧
    (∀ entry rest st lc, entrySkip entry.connector lc = true →
      executeListAux exec (entry :: rest) st lc = executeListAux exec rest st lc) ∧
    (∀ entry rest st lc, entrySkip entry.connector lc = false →
      executeListAux exec (entry :: rest) st lc =
        match exec entry.pipeline st with
        | (.Exit, _, st') => (.Exit, st')
        | (.KeepRunning, code, st') => executeListAux exec rest st' code) := by
  refine ⟨fun _ _ => rfl, ?_, ?_, ?_, ?_⟩
  · intro c lc
    rcases c with _ | c
    · simp [entrySkip]
    · cases c <;> simp [entrySkip, bne_iff_ne, beq_iff_eq]
  · intro lc
    refine ⟨rfl, rfl, rfl⟩
  · intro entry rest st lc h
    simp only [executeListAux, h, if_true]
  · intro entry rest st lc h
    simp only [executeListAux, h, if_false]
    rcases hx : exec entry.pipeline st with ⟨res, code, st'⟩
    cases res <;> simp

/-- Witness for C1 at concrete inputs: an And entry after a failing
pipeline (last_code 3) is skipped leaving last_code unchanged, and a
non-skipped entry runs its pipeline. -/
theorem execute_list_spec_witness :
    entrySkip (some Connector.And) 3 = true ∧
    executeListAux (fun (_ : Pipeline) (s : Nat) => (ExecutionResult.KeepRunning, 5, s))
      [⟨some Connector.And, ⟨[], false, false⟩⟩] 0 3 =
      executeListAux (fun (_ : Pipeline) (s : Nat) => (ExecutionResult.KeepRunning, 5, s))
      [] 0 3 := by
  refine ⟨by decide, ?_⟩
  exact (execute_list_spec
    (fun (_ : Pipeline) (s : Nat) => (ExecutionResult.KeepRunning, 5, s))).2.2.2.1
    ⟨some Connector.And, ⟨[], false, false⟩⟩ [] 0 3 (by decide)

/-! ### Claim C3: variable expansion -/

/-- C3: expand_vars leaves dollar-free strings unchanged; a double
dollar becomes one dollar; a dollar before an identifier, bare or in
braces, is replaced by the bound value or the empty string; a bare
dollar not followed by an identifier head or an opening brace is
preserved, as is a trailing dollar. -/
theorem expand_vars_spec (vars : String → Option String) :
    (∀ s : String, (∀ c ∈ s.data, c ≠ '$') → expandVarsStr vars s = s) ∧
    expandVarsStr vars "$$" = "$" ∧
    (∀ X : String, isIdentStr X = true →
      expandVarsStr vars ("$" ++ X) = (vars X).getD "" ∧
      expandVarsStr vars ("$\x7b" ++ X ++ "\x7d") = (vars X).getD "") ∧
    (∀ (c : Char) (rest : List Char), c ≠ '$' → c ≠ '{' → isIdentStart c = false →
      expandVars vars ('$' :: c :: rest) = '$' :: expandVars vars (c :: rest)) ∧
    expandVarsStr vars "$" = "$" := by
  refine ⟨?_, ?_, ?_, expandVars_dollar_other vars, ?_⟩
  · intro s h
    simp only [expandVarsStr]
    rw [expandVars_no_dollar vars s.data h, mk_data_eq]
  · show String.mk (expandVars vars ("$$" : String).data) = "$"
    rw [show ("$$" : String).data = ['$', '$'] from by decide,
      expandVars_dollar_dollar, expandVars_nil]
  · intro X hX
    obtain ⟨c, cs, hd⟩ : ∃ c cs, X.data = c :: cs := by
      rcases h : X.data with _ | ⟨c, cs⟩
      · simp only [isIdentStr, h] at hX
        exact absurd hX (by decide)
      · exact ⟨c, cs, rfl⟩
    have hid : isIdentStart c = true ∧ cs.all isIdentChar = true := by
      have h := hX
      simp only [isIdentStr, hd, Bool.and_eq_true] at h
      exact h
    have hcs : ∀ d ∈ cs, isIdentChar d = true :=
      fun d hdm => (List.all_eq_true.mp hid.2) d hdm
    constructor
    · show String.mk (expandVars vars ("$" ++ X).data) = (vars X).getD ""
      rw [String.data_append, show ("$" : String).data = ['$'] from by decide, hd]
      rw [List.singleton_append, expandVars_dollar_ident vars c cs hid.1 hcs,
        ← hd, mk_lookupVar]
    · show String.mk (expandVars vars ("$\x7b" ++ X ++ "\x7d").data) = (vars X).getD ""
      have hne : ∀ d ∈ c :: cs, ¬ d = '}' := by
        intro d hdm
        rcases List.mem_cons.mp hdm with h | h
        · subst h; intro he; rw [he] at hid; exact absurd hid.1 (by decide)
        · intro he; rw [he] at h; exact absurd (hcs _ h) (by decide)
      rw [String.data_append, String.data_append,
        show ("$\x7b" : String).data = ['$', '{'] from by decide,
        show ("\x7d" : String).data = ['}'] from by decide, hd]
      have hshape : (['$', '{'] ++ (c :: cs)) ++ ['}'] =
          '$' :: '{' :: ((c :: cs) ++ '}' :: []) := by simp
      rw [hshape, expandVars_brace vars (c :: cs) [] hne, expandVars_nil,
        List.append_nil, ← hd, mk_lookupVar]
  · show String.mk (expandVars vars ("$" : String).data) = "$"
    rw [show ("$" : String).data = ['$'] from by decide, expandVars_dollar_end]

/-- Witness for C3 at concrete inputs: a dollar-free string is
unchanged, and a bound variable A expands to its value both bare and in
braces under the map sending A to val. -/
theorem expand_vars_spec_witness :
    (∀ c ∈ ("ls -la" : String).data, c ≠ '$') ∧
    expandVarsStr (fun s => if s = "A" then some "val" else none) "ls -la" = "ls -la" ∧
    expandVarsStr (fun s => if s = "A" then some "val" else none) "$A" = "val" ∧
    expandVarsStr (fun s => if s = "A" then some "val" else none) "$\x7bA\x7d" = "val" := by
  refine ⟨by decide, (expand_vars_spec _).1 _ (by decide), ?_, ?_⟩
  · have h := ((expand_vars_spec (fun s => if s = "A" then some "val" else none)).2.2.1
      "A" (by decide)).1
    simpa using h
  · have h := ((expand_vars_spec (fun s => if s = "A" then some "val" else none)).2.2.1
      "A" (by decide)).2
    simpa using h

/-! ### Claim C4: trailing ampersand -/

/-- C4 (behaviour of the code at the failing input): parsing the line
sleep 60 & produces one entry whose pipeline has background = false.
The trailing unquoted ampersand is consumed by parse_connector as
Connector::Amp; since no pipeline follows, the loop of parse_input drops
it, and no code path ever sets background = true.  The specification
promises background = true for this input, so the code contradicts both
the specification and its own execution engine, whose background-job
branch (print the job id, return 0 immediately) and format_command
(append an ampersand to the display string) are unreachable. -/
theorem parse_trailing_amp_background :
    parseInput (fun _ => none) "sleep 60 &" =
      some [⟨none, ⟨[⟨[], some "sleep", [Arg.plain "60"], []⟩], false, false⟩⟩] := by
  have hexp : expandVars (fun _ => none) ("sleep 60 &" : String).data =
      ("sleep 60 &" : String).data :=
    expandVars_no_dollar _ _ (by decide)
  simp only [parseInput, hexp]
  decide

/-! ### Claim C5: glob expansion -/

/-- C5: expand_globs maps each Arg independently; a quoted Arg or one
without glob meta-characters contributes exactly its value; an unquoted
Arg with a meta-character contributes the sorted match list when the
filesystem reports at least one match, and the original pattern on zero
matches or a glob error, never a failure. -/
theorem expand_globs_spec (fsGlob : String → Option (List String)) :
    (∀ args, expandGlobs fsGlob args = args.flatMap (expandOneGlob fsGlob)) ∧
    (∀ arg : Arg, arg.quoted = true ∨ containsGlobChars arg.value = false →
      expandOneGlob fsGlob arg = [arg.value]) ∧
    (∀ (arg : Arg) (l : List String), arg.quoted = false →
      containsGlobChars arg.value = true → fsGlob arg.value = some l → l ≠ [] →
      expandOneGlob fsGlob arg = sortStrings l ∧
      List.Sorted (· ≤ ·) (sortStrings l) ∧ (sortStrings l).Perm l) ∧
    (∀ arg : Arg, arg.quoted = false → containsGlobChars arg.value = true →
      fsGlob arg.value = some [] ∨ fsGlob arg.value = none →
      expandOneGlob fsGlob arg = [arg.value]) := by
  refine ⟨?_, ?_, ?_, ?_⟩
  · intro args
    induction args with
    | nil => rfl
    | cons a rest ih =>
      simp only [List.flatMap_cons]
      cases hq : (a.quoted || !containsGlobChars a.value) with
      | true => simp [expandGlobs, expandOneGlob, hq, ih]
      | false =>
        rcases hg : fsGlob a.value with _ | paths
        · simp [expandGlobs, expandOneGlob, hq, hg, ih]
        · cases hp : paths.isEmpty with
          | true => simp [expandGlobs, expandOneGlob, hq, hg, hp, ih]
          | false => simp [expandGlobs, expandOneGlob, hq, hg, hp, ih]
  · intro arg h
    rcases h with h | h <;> simp [expandOneGlob, h]
  · intro arg l hq hcg hfs hne
    have h0 : l.isEmpty = false := by
      cases l with
      | nil => exact absurd rfl hne
      | cons x xs => rfl
    refine ⟨by simp [expandOneGlob, hq, hcg, hfs, h0], ?_, List.mergeSort_perm l _⟩
    exact List.sorted_mergeSort' l
  · intro arg hq hcg h
    rcases h with h | h <;> simp [expandOneGlob, hq, hcg, h]

/-- Witness for C5 at concrete inputs: a quoted pattern passes through,
and an unquoted pattern with two matches contributes their sorted list. -/
theorem expand_globs_spec_witness :
    expandOneGlob (fun s => if s = "*.c" then some ["b.c", "a.c"] else none)
      ⟨"*.c", true⟩ = ["*.c"] ∧
    expandOneGlob (fun s => if s = "*.c" then some ["b.c", "a.c"] else none)
      ⟨"*.c", false⟩ = sortStrings ["b.c", "a.c"] ∧
    List.Sorted (· ≤ ·) (sortStrings ["b.c", "a.c"]) ∧
    (sortStrings ["b.c", "a.c"]).Perm ["b.c", "a.c"] := by
  refine ⟨?_, ?_⟩
  · exact (expand_globs_spec _).2.1 _ (Or.inl rfl)
  · exact (expand_globs_spec _).2.2.1 ⟨"*.c", false⟩ ["b.c", "a.c"] rfl (by decide)
      (by simp) (by decide)

/-! ### Claim C6: derived job state -/

theorem isDoneState_iff (s : JobState) :
    s.isDoneState = true ↔ ∃ c, s = .Done c := by
  cases s <;> simp [JobState.isDoneState]

theorem isStoppedState_iff (s : JobState) :
    s.isStoppedState = true ↔ s = .Stopped := by
  cases s <;> simp [JobState.isStoppedState]

theorem isSuspended_iff (s : JobState) :
    s.isSuspended = true ↔ (s = .Stopped ∨ ∃ c, s = .Done c) := by
  cases s <;> simp [JobState.isSuspended]

theorem is_done_iff (j : Job) :
    j.is_done = true ↔ ∀ p ∈ j.processes, ∃ c, p.state = .Done c := by
  simp only [Job.is_done, List.all_eq_true]
  constructor
  · intro h p hp; exact (isDoneState_iff _).mp (h p hp)
  · intro h p hp; exact (isDoneState_iff _).mpr (h p hp)

theorem is_stopped_iff (j : Job) :
    j.is_stopped = true ↔
      ((∀ p ∈ j.processes, p.state = .Stopped ∨ ∃ c, p.state = .Done c) ∧
       ∃ p ∈ j.processes, p.state = .Stopped) := by
  simp only [Job.is_stopped, Bool.and_eq_true, List.all_eq_true, List.any_eq_true]
  constructor
  · rintro ⟨h1, p, hp, h2⟩
    exact ⟨fun q hq => (isSuspended_iff _).mp (h1 q hq),
      p, hp, (isStoppedState_iff _).mp h2⟩
  · rintro ⟨h1, p, hp, h2⟩
    exact ⟨fun q hq => (isSuspended_iff _).mpr (h1 q hq),
      p, hp, (isStoppedState_iff _).mpr h2⟩

/-- C6: for a job with a nonempty process list, the derived state is
Done(c) iff every process is done and the last process carries code c;
it is Stopped iff every process is stopped-or-done, at least one is
stopped, and not all are done; otherwise it is Running. -/
theorem job_state_spec (j : Job) (hne : j.processes ≠ []) :
    (∀ c : Int, j.state = .Done c ↔
      ((∀ p ∈ j.processes, ∃ cp, p.state = .Done cp) ∧
       ∃ pl, j.processes.getLast? = some pl ∧ pl.state = .Done c)) ∧
    (j.state = .Stopped ↔
      ((∀ p ∈ j.processes, p.state = .Stopped ∨ ∃ cp, p.state = .Done cp) ∧
       (∃ p ∈ j.processes, p.state = .Stopped) ∧
       ¬ ∀ p ∈ j.processes, ∃ cp, p.state = .Done cp)) ∧
    ((¬ ∀ p ∈ j.processes, ∃ cp, p.state = .Done cp) →
     (¬ ((∀ p ∈ j.processes, p.state = .Stopped ∨ ∃ cp, p.state = .Done cp) ∧
        ∃ p ∈ j.processes, p.state = .Stopped)) →
     j.state = .Running) := by
  obtain ⟨pl, hpl⟩ : ∃ pl, j.processes.getLast? = some pl := by
    rcases h : j.processes.getLast? with _ | pl
    · exact absurd (List.getLast?_eq_none_iff.mp h) hne
    · exact ⟨pl, rfl⟩
  have hplmem : pl ∈ j.processes := List.mem_of_mem_getLast? hpl
  refine ⟨?_, ?_, ?_⟩
  · intro c
    by_cases hd : j.is_done = true
    · obtain ⟨cpl, hcpl⟩ := (is_done_iff j).mp hd pl hplmem
      have hstate : j.state = .Done cpl := by
        simp [Job.state, hd, hpl, hcpl]
      rw [hstate]
      constructor
      · intro h
        refine ⟨(is_done_iff j).mp hd, pl, hpl, ?_⟩
        rw [hcpl]
        cases h
        rfl
      · rintro ⟨_, pl', hpl', hdone'⟩
        rw [hpl] at hpl'
        cases hpl'
        rw [hcpl] at hdone'
        cases hdone'
        rfl
    · have hstate : j.state = .Stopped ∨ j.state = .Running := by
        simp only [Job.state, hd, if_false]
        cases j.is_stopped <;> simp
      constructor
      · intro h
        rcases hstate with hs | hs <;> rw [hs] at h <;> cases h
      · rintro ⟨hall, _⟩
        exact absurd ((is_done_iff j).mpr hall) hd
  · by_cases hd : j.is_done = true
    · have hnostop : ¬ ∃ p ∈ j.processes, p.state = .Stopped := by
        rintro ⟨p, hp, hps⟩
        obtain ⟨cp, hcp⟩ := (is_done_iff j).mp hd p hp
        rw [hps] at hcp
        cases hcp
      obtain ⟨cpl, hcpl⟩ := (is_done_iff j).mp hd pl hplmem
      have hstate : j.state = .Done cpl := by
        simp [Job.state, hd, hpl, hcpl]
      rw [hstate]
      constructor
      · intro h; cases h
      · rintro ⟨_, hstop, _⟩
        exact absurd hstop hnostop
    · by_cases hs : j.is_stopped = true
      · have hstate : j.state = .Stopped := by
          simp [Job.state, hd, hs]
        rw [hstate]
        obtain ⟨h1, h2⟩ := (is_stopped_iff j).mp hs
        simp only [true_iff]
        exact ⟨h1, h2, fun hall => hd ((is_done_iff j).mpr hall)⟩
      · have hstate : j.state = .Running := by
          simp [Job.state, hd, hs]
        rw [hstate]
        constructor
        · intro h; cases h
        · rintro ⟨h1, h2, _⟩
          exact absurd ((is_stopped_iff j).mpr ⟨h1, h2⟩) hs
  · intro h1 h2
    have hd : ¬ j.is_done = true := fun h => h1 ((is_done_iff j).mp h)
    have hs : ¬ j.is_stopped = true := fun h => h2 ((is_stopped_iff j).mp h)
    simp [Job.state, hd, hs]

/-- Witness for C6 at a concrete job: two processes, both done, codes 3
then 4 — the derived state is Done 4, the last code. -/
theorem job_state_spec_witness :
    (⟨1, 10, "a | b",
      [⟨10, "a", JobState.Done 3⟩, ⟨11, "b", JobState.Done 4⟩], false⟩ : Job).state =
      JobState.Done 4 := by
  refine ((job_state_spec _ (by decide)).1 4).mpr ⟨?_, ?_⟩
  · intro p hp
    rcases List.mem_cons.mp hp with h | h
    · exact ⟨3, by rw [h]⟩
    · rcases List.mem_cons.mp h with h2 | h2
      · exact ⟨4, by rw [h2]⟩
      · cases h2
  · exact ⟨⟨11, "b", JobState.Done 4⟩, by decide, rfl⟩

/-! ### Claim C7: monotonic, fresh job ids -/

theorem runOps_ids_aux (ops : List EngineOp) :
    ∀ st : EngineState, JobInv st →
      JobInv (runOps st ops).1 ∧
      (∀ i ∈ (runOps st ops).2, st.next_job_id ≤ i) ∧
      List.Chain' (· < ·) (runOps st ops).2 ∧
      FreshAssign st ops := by
  induction ops with
  | nil =>
    intro st hinv
    exact ⟨hinv, by simp [runOps], by simp [runOps], trivial⟩
  | cons op rest ih =>
    intro st hinv
    cases op with
    | register job =>
      have hst' : (engineStep st (EngineOp.register job)).1 =
          { st with
            jobs := jtInsert st.jobs st.next_job_id { job with id := st.next_job_id },
            next_job_id := st.next_job_id + 1 } := rfl
      have hinv' : JobInv (engineStep st (EngineOp.register job)).1 := by
        rw [hst']
        intro kv hkv
        rcases List.mem_cons.mp hkv with h | h
        · rw [h]
          exact Nat.lt_succ_self _
        · exact Nat.lt_succ_of_lt (hinv kv (List.mem_of_mem_filter h))
      obtain ⟨ih1, ih2, ih3, ih4⟩ := ih _ hinv'
      have hrun : runOps st (EngineOp.register job :: rest) =
          ((runOps (engineStep st (EngineOp.register job)).1 rest).1,
           st.next_job_id ::
             (runOps (engineStep st (EngineOp.register job)).1 rest).2) := by
        simp [runOps, engineStep, registerJob]
      rw [hrun]
      have hnext : (engineStep st (EngineOp.register job)).1.next_job_id =
          st.next_job_id + 1 := by rw [hst']
      refine ⟨ih1, ?_, ?_, ?_⟩
      · intro i hi
        rcases List.mem_cons.mp hi with h | h
        · omega
        · have := ih2 i h
          omega
      · refine List.chain'_cons'.mpr ⟨?_, ih3⟩
        intro y hy
        have := ih2 y (List.mem_of_mem_head? hy)
        omega
      · refine ⟨?_, ih4⟩
        intro kv hkv
        exact Nat.ne_of_lt (hinv kv hkv)
    | remove id =>
      have hst' : (engineStep st (EngineOp.remove id)).1 =
          { st with jobs := jtRemove st.jobs id } := rfl
      have hinv' : JobInv (engineStep st (EngineOp.remove id)).1 := by
        rw [hst']
        intro kv hkv
        exact hinv kv (List.mem_of_mem_filter hkv)
      obtain ⟨ih1, ih2, ih3, ih4⟩ := ih _ hinv'
      have hrun : runOps st (EngineOp.remove id :: rest) =
          ((runOps (engineStep st (EngineOp.remove id)).1 rest).1,
           (runOps (engineStep st (EngineOp.remove id)).1 rest).2) := by
        simp [runOps, engineStep]
      rw [hrun]
      exact ⟨ih1, fun i hi => ih2 i hi, ih3, trivial, ih4⟩

/-- C7: from any state whose job table only holds ids below the counter
(true of the initial state, whose table is empty and whose counter is 1),
any sequence of registrations and removals keeps that invariant, the ids
assigned to new jobs are strictly increasing, and an id is never assigned
while an entry with that id is still in the table. -/
theorem job_ids_spec (st : EngineState) (ops : List EngineOp) (hinv : JobInv st) :
    JobInv (runOps st ops).1 ∧
    List.Chain' (· < ·) (runOps st ops).2 ∧
    FreshAssign st ops := by
  obtain ⟨h1, _, h3, h4⟩ := runOps_ids_aux ops st hinv
  exact ⟨h1, h3, h4⟩

/-- Witness for C7 at a concrete trace: register, remove, register from
the initial state (empty table, counter 1). -/
theorem job_ids_spec_witness :
    JobInv (runOps ⟨[], [], 1⟩
      [EngineOp.register ⟨0, 0, "a", [], false⟩, EngineOp.remove 1,
       EngineOp.register ⟨0, 0, "b", [], false⟩]).1 ∧
    List.Chain' (· < ·) ((runOps ⟨[], [], 1⟩
      [EngineOp.register ⟨0, 0, "a", [], false⟩, EngineOp.remove 1,
       EngineOp.register ⟨0, 0, "b", [], false⟩]).2) ∧
    FreshAssign ⟨[], [], 1⟩
      [EngineOp.register ⟨0, 0, "a", [], false⟩, EngineOp.remove 1,
       EngineOp.register ⟨0, 0, "b", [], false⟩] := by
  exact job_ids_spec ⟨[], [], 1⟩ _ (by intro kv hkv; cases hkv)

/-! ### Claim C8: the cd builtin -/

/-- C8: cd with no argument targets the home directory; cd with a dash
targets previous_dir and errors when it is unset; cd with a directory
argument targets the tilde-expanded path; on success previous_dir
becomes the old working directory and the exit code is 0; when the
target cannot be entered the builtin reports a diagnostic and exits 1
leaving the state unchanged. -/
theorem cd_spec (fs : Fs) (st : DirState) :
    (∀ h, fs.home = some h → fs.enterable h = true →
      cdRunner fs [] st = (0, { fs with cwd := h },
        { st with previous_dir := some fs.cwd })) ∧
    (st.previous_dir = none → ∀ rest,
      cdRun fs ("-" :: rest) st = (.error "OLDPWD not set", fs, st) ∧
      cdRunner fs ("-" :: rest) st = (1, fs, st)) ∧
    (∀ p, st.previous_dir = some p → fs.enterable p = true → ∀ rest,
      cdRunner fs ("-" :: rest) st = (0, { fs with cwd := p },
        { st with previous_dir := some fs.cwd })) ∧
    (∀ a rest, a ≠ "-" → fs.enterable (expandHome fs.home a) = true →
      cdRunner fs (a :: rest) st = (0, { fs with cwd := expandHome fs.home a },
        { st with previous_dir := some fs.cwd })) ∧
    (∀ a rest, a ≠ "-" → fs.enterable (expandHome fs.home a) = false →
      cdRun fs (a :: rest) st =
        (.error ("no such file or directory: " ++ expandHome fs.home a), fs, st) ∧
      cdRunner fs (a :: rest) st = (1, fs, st)) := by
  refine ⟨?_, ?_, ?_, ?_, ?_⟩
  · intro h hh he
    simp [cdRunner, cdRun, setCurrentDir, hh, he]
  · intro hp rest
    constructor <;> simp [cdRunner, cdRun, hp]
  · intro p hp he rest
    simp [cdRunner, cdRun, setCurrentDir, hp, he]
  · intro a rest ha he
    simp [cdRunner, cdRun, setCurrentDir, ha, he]
  · intro a rest ha he
    constructor <;> simp [cdRunner, cdRun, setCurrentDir, ha, he]

/-- Witness for C8 at a concrete state: cd with no argument enters the
home directory and records the old cwd, and cd with a dash errors when
previous_dir is unset. -/
theorem cd_spec_witness :
    cdRunner ⟨"/start", some "/home/u", fun _ => true⟩ [] ⟨none, []⟩ =
      (0, ⟨"/home/u", some "/home/u", fun _ => true⟩, ⟨some "/start", []⟩) ∧
    cdRunner ⟨"/start", some "/home/u", fun _ => true⟩ ["-"] ⟨none, []⟩ =
      (1, ⟨"/start", some "/home/u", fun _ => true⟩, ⟨none, []⟩) := by
  constructor
  · exact (cd_spec ⟨"/start", some "/home/u", fun _ => true⟩ ⟨none, []⟩).1
      "/home/u" rfl rfl
  · exact ((cd_spec ⟨"/start", some "/home/u", fun _ => true⟩ ⟨none, []⟩).2.1
      rfl []).2

/-! ### Claim C9: pushd then popd round-trips -/

/-- C9: when the tilde-expanded target of pushd can be entered and the
original working directory can be re-entered, pushd d followed by popd
returns to the working directory current before the pushd and restores
the length of dir_stack. -/
theorem pushd_popd_spec (fs : Fs) (st : DirState) (d : String)
    (h1 : fs.enterable (expandHome fs.home d) = true)
    (h2 : fs.enterable fs.cwd = true) :
    ∃ fs1 st1 fs2 st2,
      pushdRunner fs [d] st = (0, fs1, st1) ∧
      popdRunner fs1 [] st1 = (0, fs2, st2) ∧
      fs2.cwd = fs.cwd ∧
      st2.dir_stack.length = st.dir_stack.length := by
  have hpush : pushdRunner fs [d] st =
      (0, { fs with cwd := expandHome fs.home d },
       ⟨some fs.cwd, st.dir_stack ++ [fs.cwd]⟩) := by
    simp [pushdRunner, pushdRun, setCurrentDir, h1]
  have hpop : popdRunner { fs with cwd := expandHome fs.home d } []
      ⟨some fs.cwd, st.dir_stack ++ [fs.cwd]⟩ =
      (0, { fs with cwd := fs.cwd },
       ⟨some (expandHome fs.home d), st.dir_stack⟩) := by
    simp [popdRunner, popdRun, setCurrentDir, h2, List.getLast?_concat,
      List.dropLast_concat]
  exact ⟨_, _, _, _, hpush, hpop, rfl, rfl⟩

/-- Witness for C9 at a concrete state where every directory is
enterable. -/
theorem pushd_popd_spec_witness :
    ∃ fs1 st1 fs2 st2,
      pushdRunner ⟨"/start", some "/home/u", fun _ => true⟩ ["d"] ⟨none, ["/old"]⟩ =
        (0, fs1, st1) ∧
      popdRunner fs1 [] st1 = (0, fs2, st2) ∧
      fs2.cwd = "/start" ∧
      st2.dir_stack.length = 1 := by
  exact pushd_popd_spec ⟨"/start", some "/home/u", fun _ => true⟩ ⟨none, ["/old"]⟩
    "d" rfl rfl

/-! ### Claim C10: failed popd and zero-argument pushd restore the stack -/

/-- C10: when the entry popped from the top of dir_stack cannot be
entered, popd (and the zero-argument pushd, which pops the same way)
returns an error, pushes the popped entry back, and leaves dir_stack and
previous_dir exactly as they were. -/
theorem popd_pushd_failure_spec (fs : Fs) (st : DirState) (top : String)
    (hlast : st.dir_stack.getLast? = some top)
    (hfail : fs.enterable top = false) :
    popdRun fs [] st = (.error ("popd: no such file or directory: " ++ top), fs, st) ∧
    popdRunner fs [] st = (1, fs, st) ∧
    pushdRun fs [] st = (.error ("pushd: no such file or directory: " ++ top), fs, st) ∧
    pushdRunner fs [] st = (1, fs, st) := by
  have hrestore : st.dir_stack.dropLast ++ [top] = st.dir_stack :=
    List.dropLast_append_getLast? top (by simpa using hlast)
  refine ⟨?_, ?_, ?_, ?_⟩
  · simp [popdRun, hlast, setCurrentDir, hfail, hrestore]
  · simp [popdRunner, popdRun, hlast, setCurrentDir, hfail, hrestore]
  · simp [pushdRun, hlast, setCurrentDir, hfail, hrestore]
  · simp [pushdRunner, pushdRun, hlast, setCurrentDir, hfail, hrestore]

/-- Witness for C10 at a concrete state where nothing is enterable: the
stack and previous_dir come back unchanged. -/
theorem popd_pushd_failure_spec_witness :
    popdRunner ⟨"/c", none, fun _ => false⟩ [] ⟨some "/p", ["/x"]⟩ =
      (1, ⟨"/c", none, fun _ => false⟩, ⟨some "/p", ["/x"]⟩) ∧
    pushdRunner ⟨"/c", none, fun _ => false⟩ [] ⟨some "/p", ["/x"]⟩ =
      (1, ⟨"/c", none, fun _ => false⟩, ⟨some "/p", ["/x"]⟩) := by
  constructor
  · exact (popd_pushd_failure_spec ⟨"/c", none, fun _ => false⟩ ⟨some "/p", ["/x"]⟩
      "/x" rfl rfl).2.1
  · exact (popd_pushd_failure_spec ⟨"/c", none, fun _ => false⟩ ⟨some "/p", ["/x"]⟩
      "/x" rfl rfl).2.2.2

/-! ### Claim C2: pipeline exit codes -/

theorem jtFind_insert (t : JobTable) (k : Nat) (v : Job) :
    jtFind (jtInsert t k v) k = some v := by
  simp [jtFind, jtInsert, List.find?_cons]

theorem jtFind_applyEvent (t : JobTable) (ev : WaitEvent) (k : Nat) :
    jtFind (applyEvent t ev) k = (jtFind t k).map (fun j =>
      { j with processes := j.processes.map (fun p =>
        if p.pid = ev.1 then { p with state := ev.2 } else p) }) := by
  induction t with
  | nil => rfl
  | cons kv rest ih =>
    simp only [jtFind, applyEvent, List.map_cons, List.find?_cons]
    cases h : (kv.1 == k) with
    | true => simp [h]
    | false =>
      simp only [jtFind, applyEvent] at ih
      simpa [h] using ih

theorem spawnCmds_ok (os : ParsedCommand → SpawnOutcome) :
    ∀ cmds : List ParsedCommand,
      (∀ c ∈ cmds, c.name ≠ none ∧ c.name ≠ some "exit" ∧ isOkSpawn (os c) = true) →
      spawnCmds os cmds =
        .ok (cmds.map (fun c => ⟨osPid os c, c.name.getD "", .Running⟩)) := by
  intro cmds
  induction cmds with
  | nil => intro _; rfl
  | cons c rest ih =>
    intro h
    obtain ⟨h1, h2, h3⟩ := h c (List.mem_cons_self _ _)
    rcases hn : c.name with _ | n
    · exact absurd hn h1
    · have hne : ¬ n = "exit" := by
        intro he
        rw [he] at hn
        exact h2 hn
      rcases ho : os c with pid | _ | _
      · simp [spawnCmds, hn, hne, ho,
          ih (fun d hd => h d (List.mem_cons_of_mem _ hd)), osPid, Except.map]
      · rw [ho] at h3
        exact absurd h3 (by decide)
      · rw [ho] at h3
        exact absurd h3 (by decide)

/-- Under in-order delivery of one Done event per still-running process,
wait_for_job returns the exit code of the last process of the job. -/
theorem waitForJob_drain (f : Nat → Int) (jobId : Nat) :
    ∀ (runPart donePart : List ProcessInfo) (st : EngineState) (job : Job),
      jtFind st.jobs jobId = some job →
      job.processes = donePart ++ runPart →
      (∀ p ∈ donePart, p.state = .Done (f p.pid)) →
      (∀ p ∈ runPart, p.state = .Running) →
      (job.processes.map (fun p => p.pid)).Nodup →
      job.processes ≠ [] →
      ∀ lc, (waitForJob jobId true lc st
          (runPart.map (fun p => (p.pid, JobState.Done (f p.pid))))).1 =
        f (((job.processes.map (fun p => p.pid)).getLast?).getD 0) := by
  intro runPart
  induction runPart with
  | nil =>
    intro donePart st job hfind hproc hdone hrun hnodup hne lc
    have hall : ∀ p ∈ job.processes, p.state = .Done (f p.pid) := by
      intro p hp
      rw [hproc, List.append_nil] at hp
      exact hdone p hp
    have hdoneB : job.is_done = true :=
      (is_done_iff job).mpr (fun p hp => ⟨f p.pid, hall p hp⟩)
    have hstopB : job.is_stopped = false := by
      cases hs : job.is_stopped with
      | false => rfl
      | true =>
        obtain ⟨_, q, hq, hqs⟩ := (is_stopped_iff job).mp hs
        rw [hall q hq] at hqs
        cases hqs
    obtain ⟨pl, hpl⟩ : ∃ pl, job.processes.getLast? = some pl := by
      rcases h : job.processes.getLast? with _ | pl
      · exact absurd (List.getLast?_eq_none_iff.mp h) hne
      · exact ⟨pl, rfl⟩
    have hplst : pl.state = .Done (f pl.pid) :=
      hall pl (List.mem_of_mem_getLast? hpl)
    have hcheck : jobCheck jobId true lc st =
        some (f pl.pid, { st with jobs := jtRemove st.jobs jobId }) := by
      simp [jobCheck, hfind, hstopB, hdoneB, Job.state, hpl, hplst]
    simp only [List.map_nil, waitForJob, hcheck]
    rw [List.getLast?_map, hpl]
    rfl
  | cons p rps ih =>
    intro donePart st job hfind hproc hdone hrun hnodup hne lc
    have hpR : p.state = .Running := hrun p (List.mem_cons_self _ _)
    have hpmem : p ∈ job.processes := by
      rw [hproc]
      exact List.mem_append_right _ (List.mem_cons_self _ _)
    have hdoneB : job.is_done = false := by
      cases hd : job.is_done with
      | false => rfl
      | true =>
        obtain ⟨c, hc⟩ := (is_done_iff job).mp hd p hpmem
        rw [hpR] at hc
        cases hc
    have hstopB : job.is_stopped = false := by
      cases hs : job.is_stopped with
      | false => rfl
      | true =>
        obtain ⟨hsusp, _⟩ := (is_stopped_iff job).mp hs
        rcases hsusp p hpmem with h | ⟨c, hc⟩
        · rw [hpR] at h
          cases h
        · rw [hpR] at hc
          cases hc
    have hcheck : jobCheck jobId true lc st = none := by
      simp [jobCheck, hfind, hstopB, hdoneB]
    -- the pid of p is fresh among the other processes
    have hpids : (job.processes.map (fun q => q.pid)) =
        donePart.map (fun q => q.pid) ++ p.pid :: rps.map (fun q => q.pid) := by
      rw [hproc]
      simp
    have hnotmem : p.pid ∉ donePart.map (fun q => q.pid) ∧
        p.pid ∉ rps.map (fun q => q.pid) := by
      rw [hpids] at hnodup
      have h2 := List.nodup_middle.mp hnodup
      rcases List.nodup_cons.mp h2 with ⟨hna, _⟩
      exact ⟨fun hm => hna (List.mem_append.mpr (Or.inl hm)),
             fun hm => hna (List.mem_append.mpr (Or.inr hm))⟩
    -- one loop iteration: consume the event for p
    have hstep : waitForJob jobId true lc st
        ((p :: rps).map (fun q => (q.pid, JobState.Done (f q.pid)))) =
        waitForJob jobId true lc
          { st with jobs := applyEvent st.jobs (p.pid, JobState.Done (f p.pid)) }
          (rps.map (fun q => (q.pid, JobState.Done (f q.pid)))) := by
      simp only [List.map_cons, waitForJob, hcheck]
    rw [hstep]
    -- the updated job after the event
    have hupd : ∀ q : ProcessInfo, q.pid ≠ p.pid →
        (if q.pid = p.pid then { q with state := JobState.Done (f p.pid) } else q) = q := by
      intro q hq
      rw [if_neg hq]
    have hfind' : jtFind (applyEvent st.jobs (p.pid, JobState.Done (f p.pid))) jobId =
        some { job with processes := job.processes.map (fun q =>
          if q.pid = p.pid then { q with state := JobState.Done (f p.pid) } else q) } := by
      rw [jtFind_applyEvent, hfind]
      rfl
    have hprocs' : job.processes.map (fun q =>
        if q.pid = p.pid then { q with state := JobState.Done (f p.pid) } else q) =
        (donePart ++ [{ p with state := JobState.Done (f p.pid) }]) ++ rps := by
      rw [hproc]
      rw [List.map_append, List.map_cons]
      have hd : donePart.map (fun q =>
          if q.pid = p.pid then { q with state := JobState.Done (f p.pid) } else q) =
          donePart := by
        rw [List.map_congr_left (fun q hq => hupd q (fun he =>
          hnotmem.1 (he ▸ List.mem_map_of_mem _ hq)))]
        simp
      have hr : rps.map (fun q =>
          if q.pid = p.pid then { q with state := JobState.Done (f p.pid) } else q) =
          rps := by
        rw [List.map_congr_left (fun q hq => hupd q (fun he =>
          hnotmem.2 (he ▸ List.mem_map_of_mem _ hq)))]
        simp
      rw [hd, hr, if_pos rfl]
      simp
    have hpid_inv : (job.processes.map (fun q =>
        if q.pid = p.pid then { q with state := JobState.Done (f p.pid) } else q)).map
          (fun q => q.pid) = job.processes.map (fun q => q.pid) := by
      rw [List.map_map]
      refine List.map_congr_left ?_
      intro q _
      by_cases h : q.pid = p.pid <;> simp [h]
    have := ih (donePart ++ [{ p with state := JobState.Done (f p.pid) }])
      { st with jobs := applyEvent st.jobs (p.pid, JobState.Done (f p.pid)) }
      { job with processes := job.processes.map (fun q =>
          if q.pid = p.pid then { q with state := JobState.Done (f p.pid) } else q) }
      hfind' hprocs'
      (by
        intro q hq
        rcases List.mem_append.mp hq with h | h
        · exact hdone q h
        · rcases List.mem_cons.mp h with h2 | h2
          · rw [h2]
          · cases h2)
      (fun q hq => hrun q (List.mem_cons_of_mem _ hq))
      (by simpa [hpid_inv] using hnodup)
      (fun hnil => hne (List.map_eq_nil_iff.mp hnil))
      lc
    rw [this]
    simp only [hpid_inv]

/-- C2: the exit code returned by execute is the pipeline body code with
the negation transform applied: for a single-command pipeline the code
of execute_simple, inverted when negated; for a foreground multi-command
pipeline that spawns successfully and whose processes all exit, the exit
code of the last command, inverted when negated. -/
theorem execute_exit_code_spec
    (runSimple : Pipeline → EngineState → ExecutionResult × Int × EngineState)
    (os : ParsedCommand → SpawnOutcome) (f : Nat → Int)
    (p : Pipeline) (st : EngineState) (hbg : p.background = false) :
    (∀ events, (aliasedPipeline st.aliases p).commands.length = 1 →
      execute runSimple os events p st =
        (match runSimple (aliasedPipeline st.aliases p) st with
         | (res, code, st') => (res, negateCode p.negated code, st'))) ∧
    (∀ clast, (aliasedPipeline st.aliases p).commands.length ≠ 1 →
      (∀ c ∈ (aliasedPipeline st.aliases p).commands,
        c.name ≠ none ∧ c.name ≠ some "exit" ∧ isOkSpawn (os c) = true) →
      ((aliasedPipeline st.aliases p).commands.map (osPid os)).Nodup →
      (aliasedPipeline st.aliases p).commands.getLast? = some clast →
      ∃ st'', execute runSimple os
          ((aliasedPipeline st.aliases p).commands.map
            (fun c => (osPid os c, JobState.Done (f (osPid os c))))) p st =
        (.KeepRunning, negateCode p.negated (f (osPid os clast)), st'')) := by
  constructor
  · intro events h1
    simp only [execute]
    rw [if_pos h1]
    rfl
  · intro clast h2 hcmds hnodup hlast
    have hspawn := spawnCmds_ok os (aliasedPipeline st.aliases p).commands hcmds
    have hcne : (aliasedPipeline st.aliases p).commands ≠ [] := by
      intro h
      rw [h] at hlast
      cases hlast
    let mkp : ParsedCommand → ProcessInfo :=
      fun c => ⟨osPid os c, c.name.getD "", .Running⟩
    let ps : List ProcessInfo := (aliasedPipeline st.aliases p).commands.map mkp
    let regJob : Job :=
      { id := st.next_job_id,
        pgid := firstPgidOf (aliasedPipeline st.aliases p).commands ps,
        command := formatCommand (aliasedPipeline st.aliases p),
        processes := ps,
        reported_done := false }
    let st1 : EngineState :=
      { st with jobs := jtInsert st.jobs st.next_job_id regJob,
                next_job_id := st.next_job_id + 1 }
    let events : List WaitEvent := (aliasedPipeline st.aliases p).commands.map
      (fun c => (osPid os c, JobState.Done (f (osPid os c))))
    show ∃ st'', execute runSimple os events p st =
      (.KeepRunning, negateCode p.negated (f (osPid os clast)), st'')
    have hbgE : (aliasedPipeline st.aliases p).background = false := hbg
    have hexec : execute runSimple os events p st =
        (.KeepRunning,
         negateCode p.negated (waitForJob st.next_job_id true 0 st1 events).1,
         (waitForJob st.next_job_id true 0 st1 events).2) := by
      simp only [execute]
      rw [if_neg h2, hspawn]
      simp only [hbgE, Bool.false_eq_true, if_false, registerJob]
      rfl
    have hps_events : ps.map (fun q => (q.pid, JobState.Done (f q.pid))) = events := by
      show (List.map mkp (aliasedPipeline st.aliases p).commands).map
        (fun q => (q.pid, JobState.Done (f q.pid))) = _
      rw [List.map_map]
      rfl
    have hps_pids : ps.map (fun q => q.pid) =
        (aliasedPipeline st.aliases p).commands.map (osPid os) := by
      show (List.map mkp (aliasedPipeline st.aliases p).commands).map
        (fun q => q.pid) = _
      rw [List.map_map]
      rfl
    have hdrain := waitForJob_drain f st.next_job_id ps [] st1 regJob
      (jtFind_insert _ _ _)
      (by simp)
      (by intro q hq; cases hq)
      (by
        intro q hq
        obtain ⟨c, _, hc⟩ := List.mem_map.mp hq
        rw [← hc])
      (by rw [show regJob.processes = ps from rfl, hps_pids]; exact hnodup)
      (by
        intro h
        exact hcne (List.map_eq_nil_iff.mp h))
      0
    rw [hps_events] at hdrain
    have hlastpid : ((regJob.processes.map (fun q => q.pid)).getLast?).getD 0 =
        osPid os clast := by
      rw [show regJob.processes = ps from rfl, hps_pids, List.getLast?_map, hlast]
      rfl
    rw [hlastpid] at hdrain
    exact ⟨(waitForJob st.next_job_id true 0 st1 events).2, by rw [hexec, hdrain]⟩

/-- Witness for C2 at a concrete two-command foreground pipeline a | b
with pids 1 and 2 and exit codes 0 and 7: execute returns 7, the code of
the last command. -/
theorem execute_exit_code_spec_witness :
    ∃ st'', execute
      (fun _ st => (ExecutionResult.KeepRunning, 0, st))
      (fun c => SpawnOutcome.ok (if c.name = some "a" then 1 else 2))
      ((aliasedPipeline [] ⟨[⟨[], some "a", [], []⟩, ⟨[], some "b", [], []⟩],
          false, false⟩).commands.map
        (fun c => (osPid (fun c => SpawnOutcome.ok (if c.name = some "a" then 1 else 2)) c,
          JobState.Done ((fun pid => if pid = 2 then (7 : Int) else 0)
            (osPid (fun c => SpawnOutcome.ok (if c.name = some "a" then 1 else 2)) c)))))
      ⟨[⟨[], some "a", [], []⟩, ⟨[], some "b", [], []⟩], false, false⟩
      ⟨[], [], 1⟩ =
      (ExecutionResult.KeepRunning,
       negateCode false ((fun pid => if pid = 2 then (7 : Int) else 0)
         (osPid (fun c => SpawnOutcome.ok (if c.name = some "a" then 1 else 2))
           ⟨[], some "b", [], []⟩)), st'') := by
  exact (execute_exit_code_spec
    (fun _ st => (ExecutionResult.KeepRunning, 0, st))
    (fun c => SpawnOutcome.ok (if c.name = some "a" then 1 else 2))
    (fun pid => if pid = 2 then (7 : Int) else 0)
    ⟨[⟨[], some "a", [], []⟩, ⟨[], some "b", [], []⟩], false, false⟩
    ⟨[], [], 1⟩ rfl).2 ⟨[], some "b", [], []⟩ (by decide) (by decide) (by decide)
    (by decide)

end Cerf
